import Mathlib

/-!
Shallow embedding of the data-sampler repository (src/datasampler/measurement.py
and src/datasampler/sampler.py).  Timestamps are modelled as whole seconds
(Nat); the Measurement value object strips sub-second precision at
construction, so this loses nothing observable.  Interval lengths are in
minutes, converted to seconds by the factor 60 exactly where the Python code
adds timedelta(minutes=interval).
-/

namespace DataSampler

/-- Enumeration of measurement types, from measurement.py. -/
inductive MeasType where
  | SPO2
  | HR
  | TEMP
deriving DecidableEq, Repr

/-- A single measurement: time (whole seconds since an arbitrary epoch),
type, and numeric value (modelled as a rational). -/
structure Measurement where
  measurement_time : Nat
  measurement_type : MeasType
  value : ℚ
deriving DecidableEq, Repr

/-- Stable insertion of a measurement into a list, placing it before the
first element whose time is not smaller.  Used to model the stable sort
`sorted(measurements, key=lambda m: m.measurement_time)`. -/
def insertByTime (m : Measurement) : List Measurement → List Measurement
  | [] => [m]
  | x :: xs =>
      if m.measurement_time ≤ x.measurement_time then m :: x :: xs
      else x :: insertByTime m xs

/-- Stable sort by measurement_time, modelling the Python `sorted` call. -/
def sortByTime : List Measurement → List Measurement
  | [] => []
  | x :: xs => insertByTime x (sortByTime xs)

/-- DataSampler.__get_interval_start: zero seconds, floor the minute field
to a multiple of the interval.  With t in seconds, the hour floor is
(t / 3600) * 3600 and the minute within the hour is (t / 60) % 60. -/
def get_interval_start (i : Nat) (t : Nat) : Nat :=
  (t / 3600) * 3600 + (((t / 60) % 60) / i * i) * 60

/-- DataSampler.__sort_and_filter_measurements: sort ascending by time,
then drop readings strictly before the optional start bound. -/
def sort_and_filter_measurements (ms : List Measurement) (st : Option Nat) :
    List Measurement :=
  match st with
  | some s => (sortByTime ms).filter (fun m => decide (s ≤ m.measurement_time))
  | none => sortByTime ms

/-- Fuel-indexed form of the while loop inside
DataSampler.__generate_intervals; the fuel only bounds the number of
iterations so that the recursion is structural (and kernel-reducible). -/
def genIntervalsAux (i : Nat) : Nat → Nat → Nat → List Nat
  | 0, _, _ => []
  | fuel + 1, cur, endT =>
      if cur ≤ endT then cur :: genIntervalsAux i fuel (cur + 60 * i) endT
      else []

/-- The while loop inside DataSampler.__generate_intervals: collect
current_time, current_time + interval, ... while current_time <= end_time.
The guard 0 < i records the class invariant that the interval is positive
(guaranteed by the constructor and the override check); with a positive
interval the fuel endT + 1 - cur is sufficient, so this computes exactly
the loop (see genIntervals_eq). -/
def genIntervals (i cur endT : Nat) : List Nat :=
  if 0 < i then genIntervalsAux i (endT + 1 - cur) cur endT else []

/-- DataSampler.__generate_intervals: re-sort, anchor at the supplied start
or at the interval floor of the earliest reading, walk to the latest
reading time. -/
def generate_intervals (i : Nat) (ms : List Measurement) (st : Option Nat) :
    List Nat :=
  match sortByTime ms with
  | [] => []
  | m0 :: rest =>
      let startT :=
        match st with
        | some s => s
        | none => get_interval_start i m0.measurement_time
      genIntervals i startT (List.getLastD rest m0).measurement_time

/-- Fuel-indexed form of the inner while loop of
DataSampler.__sample_single_type; the fuel only bounds the number of
iterations so that the recursion is structural (and kernel-reducible). -/
def advanceLoopAux (i t : Nat) (mt : MeasType) :
    Nat → Nat → Option Measurement → List Measurement × Nat
  | 0, cie, _ => ([], cie)
  | fuel + 1, cie, pending =>
      if cie < t then
        match pending with
        | some lm =>
            let r := advanceLoopAux i t mt fuel (cie + 60 * i) none
            (Measurement.mk cie mt lm.value :: r.1, r.2)
        | none => advanceLoopAux i t mt fuel (cie + 60 * i) none
      else ([], cie)

/-- The inner while loop of DataSampler.__sample_single_type: advance the
interval end until it reaches the reading time t, emitting the pending
value at the first boundary and clearing it.  Returns the emitted points
and the final interval end.  With a positive interval the fuel t - cie is
sufficient, so this computes exactly the loop (see advanceLoop_stop,
advanceLoop_none_step and advanceLoop_some_step). -/
def advanceLoop (i t : Nat) (mt : MeasType) (cie : Nat)
    (pending : Option Measurement) : List Measurement × Nat :=
  if 0 < i then advanceLoopAux i t mt (t - cie) cie pending else ([], cie)

/-- The for loop of DataSampler.__sample_single_type, processing the
readings of one type against the grid, carrying the interval end and the
pending (last unsampled) measurement. -/
def sampleWalk (i : Nat) (mt : MeasType) (ivs : List Nat) :
    List Measurement → Nat → Option Measurement → List Measurement
  | [], cie, pending =>
      match pending with
      | some lm => [Measurement.mk cie mt lm.value]
      | none => []
  | m :: rest, cie, pending =>
      if m.measurement_time ∈ ivs then
        Measurement.mk m.measurement_time mt m.value ::
          sampleWalk i mt ivs rest cie none
      else
        let r := advanceLoop i m.measurement_time mt cie pending
        r.1 ++ sampleWalk i mt ivs rest r.2 (some m)

/-- DataSampler.__sample_single_type: empty input gives empty output;
otherwise walk the readings starting from the floor of the first reading
plus one interval. -/
def sample_single_type (i : Nat) (mt : MeasType) (ms : List Measurement)
    (ivs : List Nat) : List Measurement :=
  match ms with
  | [] => []
  | m0 :: _ =>
      sampleWalk i mt ivs ms
        (get_interval_start i m0.measurement_time + 60 * i) none

/-- Key order of the defaultdict built by
DataSampler.__group_measurements_by_type: measurement types in order of
first appearance in the (time-sorted) list. -/
def typesInOrder : List Measurement → List MeasType
  | [] => []
  | m :: rest =>
      m.measurement_type ::
        (typesInOrder rest).filter (fun t => decide (¬ t = m.measurement_type))

/-- The group stored for one type: the sub-list of measurements of that
type, in order. -/
def groupOf (l : List Measurement) (t : MeasType) : List Measurement :=
  l.filter (fun m => decide (m.measurement_type = t))

/-- Concatenation of the per-type outputs in dict key order, modelling the
extend loop of sample_measurements. -/
def concatBlocks (ts : List MeasType) (g : MeasType → List Measurement) :
    List Measurement :=
  match ts with
  | [] => []
  | t :: rest => g t ++ concatBlocks rest g

/-- The interval update at the top of sample_measurements and
sample_measurements_by_type: `if interval is not None and interval > 0:
self.interval = interval`.  A missing, zero or negative override leaves
the current interval unchanged. -/
def updInterval (cur : Nat) (ov : Option Int) : Nat :=
  match ov with
  | some v => if 0 < v then v.toNat else cur
  | none => cur

/-- DataSampler.__init__: raises ValueError when the interval is missing,
zero or negative; otherwise stores it. -/
def initSampler (interval : Option Int) : Except String Nat :=
  match interval with
  | none => Except.error "Interval must be a positive integer"
  | some v =>
      if v ≤ 0 then Except.error "Interval must be a positive integer"
      else Except.ok v.toNat

/-- DataSampler.sample_measurements.  The instance state is the current
interval (cur); the result pairs the returned flat list with the interval
stored on the instance afterwards.  The two branches of `if to_sort`
return the same list, exactly as in the source. -/
def sample_measurements (cur : Nat) (ms : List Measurement) (ov : Option Int)
    (st : Option Nat) (to_sort : Bool) : List Measurement × Nat :=
  let i := updInterval cur ov
  let sorted := sort_and_filter_measurements ms st
  let ivs := generate_intervals i sorted st
  let flat := concatBlocks (typesInOrder sorted)
    (fun t => sample_single_type i t (groupOf sorted t) ivs)
  if to_sort then (flat, i) else (flat, i)

/-- DataSampler.sample_measurements_by_type: same pipeline, but the
per-type outputs are returned as an association list in dict key order. -/
def sample_measurements_by_type (cur : Nat) (ms : List Measurement)
    (ov : Option Int) (st : Option Nat) :
    List (MeasType × List Measurement) × Nat :=
  let i := updInterval cur ov
  let sorted := sort_and_filter_measurements ms st
  let ivs := generate_intervals i sorted st
  ((typesInOrder sorted).map
      (fun t => (t, sample_single_type i t (groupOf sorted t) ivs)), i)

/-- Lookup of a type in the association list returned by
sample_measurements_by_type. -/
def lookupType (t : MeasType) :
    List (MeasType × List Measurement) → Option (List Measurement)
  | [] => none
  | (u, v) :: rest => if u = t then some v else lookupType t rest

/-- Boolean check that a list of measurements is non-decreasing in time. -/
def isTimeSorted : List Measurement → Bool
  | [] => true
  | [_] => true
  | a :: b :: rest =>
      decide (a.measurement_time ≤ b.measurement_time) && isTimeSorted (b :: rest)

/-- Concatenation of the value lists of an association list, in order. -/
def joinBlocks : List (MeasType × List Measurement) → List Measurement
  | [] => []
  | (_, v) :: rest => v ++ joinBlocks rest

/-! ### Loop equations: the fuel versions compute exactly the source loops -/

theorem genIntervalsAux_stop (i : Nat) (f cur endT : Nat) (h : ¬ cur ≤ endT) :
    genIntervalsAux i f cur endT = [] := by
  cases f <;> simp [genIntervalsAux, h]

theorem genIntervalsAux_congr (i : Nat) (hi : 0 < i) :
    ∀ f1 f2 cur endT, endT + 1 - cur ≤ f1 → endT + 1 - cur ≤ f2 →
      genIntervalsAux i f1 cur endT = genIntervalsAux i f2 cur endT := by
  intro f1
  induction f1 with
  | zero =>
      intro f2 cur endT h1 _
      have hcur : ¬ cur ≤ endT := by omega
      rw [genIntervalsAux_stop i 0 cur endT hcur,
          genIntervalsAux_stop i f2 cur endT hcur]
  | succ g ih =>
      intro f2 cur endT h1 h2
      by_cases hcur : cur ≤ endT
      · cases f2 with
        | zero => omega
        | succ g2 =>
            simp only [genIntervalsAux, if_pos hcur]
            exact congrArg _ (ih g2 (cur + 60 * i) endT (by omega) (by omega))
      · rw [genIntervalsAux_stop i (g + 1) cur endT hcur,
            genIntervalsAux_stop i f2 cur endT hcur]

/-- Unfolding equation for the __generate_intervals while loop. -/
theorem genIntervals_eq (i cur endT : Nat) (hi : 0 < i) :
    genIntervals i cur endT =
      if cur ≤ endT then cur :: genIntervals i (cur + 60 * i) endT else [] := by
  by_cases hcur : cur ≤ endT
  · obtain ⟨k, hk⟩ : ∃ k, endT + 1 - cur = k + 1 := ⟨endT - cur, by omega⟩
    simp only [genIntervals, if_pos hi, if_pos hcur, hk, genIntervalsAux]
    exact congrArg _
      (genIntervalsAux_congr i hi k (endT + 1 - (cur + 60 * i)) (cur + 60 * i) endT
        (by omega) (by omega))
  · simp only [genIntervals, if_pos hi, if_neg hcur]
    exact genIntervalsAux_stop i _ cur endT hcur

/-- Membership in the generated grid: exactly the instants reachable from
the anchor by whole multiples of the interval, up to the end time. -/
theorem genIntervalsAux_mem (i : Nat) (hi : 0 < i) :
    ∀ f cur endT x, endT + 1 - cur ≤ f →
      (x ∈ genIntervalsAux i f cur endT ↔ ∃ k, x = cur + 60 * i * k ∧ x ≤ endT) := by
  intro f
  induction f with
  | zero =>
      intro cur endT x h1
      have hcur : ¬ cur ≤ endT := by omega
      rw [genIntervalsAux_stop i 0 cur endT hcur]
      simp only [List.not_mem_nil, false_iff]
      rintro ⟨k, hk, hle⟩
      have : cur ≤ x := hk ▸ Nat.le_add_right _ _
      omega
  | succ g ih =>
      intro cur endT x h1
      by_cases hcur : cur ≤ endT
      · simp only [genIntervalsAux, if_pos hcur, List.mem_cons]
        rw [ih (cur + 60 * i) endT x (by omega)]
        constructor
        · rintro (rfl | ⟨k, hk, hle⟩)
          · exact ⟨0, by omega, hcur⟩
          · exact ⟨k + 1, by rw [hk]; ring, hle⟩
        · rintro ⟨k, hk, hle⟩
          cases k with
          | zero => left; omega
          | succ k' => right; exact ⟨k', by rw [hk]; ring, hle⟩
      · rw [genIntervalsAux_stop i (g + 1) cur endT hcur]
        simp only [List.not_mem_nil, false_iff]
        rintro ⟨k, hk, hle⟩
        have : cur ≤ x := hk ▸ Nat.le_add_right _ _
        omega

theorem genIntervals_mem (i cur endT x : Nat) (hi : 0 < i) :
    x ∈ genIntervals i cur endT ↔ ∃ k, x = cur + 60 * i * k ∧ x ≤ endT := by
  simp only [genIntervals, if_pos hi]
  exact genIntervalsAux_mem i hi _ cur endT x (Nat.le_refl _)

theorem advanceLoopAux_stop (i t : Nat) (mt : MeasType) (f cie : Nat)
    (pending : Option Measurement) (h : ¬ cie < t) :
    advanceLoopAux i t mt f cie pending = ([], cie) := by
  cases f <;> simp [advanceLoopAux, h]

/-- Once pending is cleared, later boundaries of the same gap emit nothing. -/
theorem advanceLoopAux_none_fst (i t : Nat) (mt : MeasType) :
    ∀ f cie, (advanceLoopAux i t mt f cie none).1 = [] := by
  intro f
  induction f with
  | zero => intro cie; rfl
  | succ g ih =>
      intro cie
      by_cases hcie : cie < t
      · simp only [advanceLoopAux, if_pos hcie]
        exact ih (cie + 60 * i)
      · rw [advanceLoopAux_stop i t mt _ cie none hcie]

theorem advanceLoopAux_congr (i t : Nat) (mt : MeasType) (hi : 0 < i) :
    ∀ f1 f2 cie pending, t - cie ≤ f1 → t - cie ≤ f2 →
      advanceLoopAux i t mt f1 cie pending = advanceLoopAux i t mt f2 cie pending := by
  intro f1
  induction f1 with
  | zero =>
      intro f2 cie pending h1 _
      have hcie : ¬ cie < t := by omega
      rw [advanceLoopAux_stop i t mt 0 cie pending hcie,
          advanceLoopAux_stop i t mt f2 cie pending hcie]
  | succ g ih =>
      intro f2 cie pending h1 h2
      by_cases hcie : cie < t
      · cases f2 with
        | zero => omega
        | succ g2 =>
            simp only [advanceLoopAux, if_pos hcie]
            have hrec := ih g2 (cie + 60 * i) none (by omega) (by omega)
            cases pending with
            | none => exact hrec
            | some lm => simp only [hrec]
      · rw [advanceLoopAux_stop i t mt _ cie pending hcie,
            advanceLoopAux_stop i t mt f2 cie pending hcie]

/-- Unfolding: the loop does not run when the reading does not pass the
current interval end. -/
theorem advanceLoop_stop (i t : Nat) (mt : MeasType) (cie : Nat)
    (pending : Option Measurement) (h : ¬ cie < t) :
    advanceLoop i t mt cie pending = ([], cie) := by
  unfold advanceLoop
  by_cases hi : 0 < i
  · rw [if_pos hi]; exact advanceLoopAux_stop i t mt _ cie pending h
  · rw [if_neg hi]

theorem advanceLoop_none_step (i t : Nat) (mt : MeasType) (cie : Nat)
    (hi : 0 < i) (h : cie < t) :
    advanceLoop i t mt cie none = advanceLoop i t mt (cie + 60 * i) none := by
  simp only [advanceLoop, if_pos hi]
  obtain ⟨g, hg⟩ : ∃ g, t - cie = g + 1 := ⟨t - cie - 1, by omega⟩
  rw [hg]
  simp only [advanceLoopAux, if_pos h]
  exact advanceLoopAux_congr i t mt hi g (t - (cie + 60 * i)) (cie + 60 * i) none
    (by omega) (by omega)

theorem advanceLoop_some_step (i t : Nat) (mt : MeasType) (cie : Nat)
    (lm : Measurement) (hi : 0 < i) (h : cie < t) :
    advanceLoop i t mt cie (some lm) =
      (Measurement.mk cie mt lm.value :: (advanceLoop i t mt (cie + 60 * i) none).1,
       (advanceLoop i t mt (cie + 60 * i) none).2) := by
  simp only [advanceLoop, if_pos hi]
  obtain ⟨g, hg⟩ : ∃ g, t - cie = g + 1 := ⟨t - cie - 1, by omega⟩
  rw [hg]
  simp only [advanceLoopAux, if_pos h]
  rw [advanceLoopAux_congr i t mt hi g (t - (cie + 60 * i)) (cie + 60 * i) none
    (by omega) (by omega)]

/-- The gap loop with no pending value emits nothing. -/
theorem advanceLoop_none_fst (i t : Nat) (mt : MeasType) (cie : Nat) :
    (advanceLoop i t mt cie none).1 = [] := by
  unfold advanceLoop
  by_cases hi : 0 < i
  · rw [if_pos hi]; exact advanceLoopAux_none_fst i t mt _ cie
  · rw [if_neg hi]

/-- The gap loop with a pending value emits exactly one point, at the
first boundary it reaches. -/
theorem advanceLoop_some_fst (i t : Nat) (mt : MeasType) (cie : Nat)
    (lm : Measurement) (hi : 0 < i) (h : cie < t) :
    (advanceLoop i t mt cie (some lm)).1 = [Measurement.mk cie mt lm.value] := by
  rw [advanceLoop_some_step i t mt cie lm hi h]
  simp [advanceLoop_none_fst]

/-! ### The stable sort -/

/-- The ordering used throughout: non-decreasing measurement time. -/
def timeLE (a b : Measurement) : Prop :=
  a.measurement_time ≤ b.measurement_time

theorem insertByTime_perm (m : Measurement) (l : List Measurement) :
    List.Perm (insertByTime m l) (m :: l) := by
  induction l with
  | nil => exact List.Perm.refl _
  | cons x xs ih =>
      by_cases h : m.measurement_time ≤ x.measurement_time
      · simp only [insertByTime, if_pos h]
        exact List.Perm.refl _
      · simp only [insertByTime, if_neg h]
        exact (ih.cons x).trans (List.Perm.swap m x xs)

theorem sortByTime_perm (l : List Measurement) :
    List.Perm (sortByTime l) l := by
  induction l with
  | nil => exact List.Perm.refl _
  | cons x xs ih =>
      exact (insertByTime_perm x (sortByTime xs)).trans (ih.cons x)

theorem mem_sortByTime {m : Measurement} {l : List Measurement} :
    m ∈ sortByTime l ↔ m ∈ l :=
  (sortByTime_perm l).mem_iff

theorem insertByTime_of_le (m : Measurement) (l : List Measurement)
    (h : ∀ y ∈ l, timeLE m y) : insertByTime m l = m :: l := by
  cases l with
  | nil => rfl
  | cons x xs =>
      exact if_pos (h x (List.mem_cons_self x xs))

theorem insertByTime_pairwise (m : Measurement) (l : List Measurement)
    (h : List.Pairwise timeLE l) :
    List.Pairwise timeLE (insertByTime m l) := by
  induction l with
  | nil => simp [insertByTime]
  | cons x xs ih =>
      rw [List.pairwise_cons] at h
      by_cases hle : m.measurement_time ≤ x.measurement_time
      · simp only [insertByTime, if_pos hle]
        rw [List.pairwise_cons]
        refine ⟨?_, List.pairwise_cons.mpr h⟩
        intro y hy
        rcases List.mem_cons.mp hy with rfl | hy
        · exact hle
        · exact Nat.le_trans hle (h.1 y hy)
      · simp only [insertByTime, if_neg hle]
        rw [List.pairwise_cons]
        refine ⟨?_, ih h.2⟩
        intro y hy
        have hy' := (insertByTime_perm m xs).mem_iff.mp hy
        rcases List.mem_cons.mp hy' with rfl | hy'
        · exact Nat.le_of_lt (Nat.lt_of_not_le hle)
        · exact h.1 y hy'

theorem sortByTime_pairwise (l : List Measurement) :
    List.Pairwise timeLE (sortByTime l) := by
  induction l with
  | nil => simp [sortByTime]
  | cons x xs ih => exact insertByTime_pairwise x (sortByTime xs) ih

theorem sortByTime_of_pairwise (l : List Measurement)
    (h : List.Pairwise timeLE l) : sortByTime l = l := by
  induction l with
  | nil => rfl
  | cons x xs ih =>
      rw [List.pairwise_cons] at h
      simp only [sortByTime, ih h.2]
      exact insertByTime_of_le x xs h.1

theorem filter_insertByTime_neg (p : Measurement → Bool) (m : Measurement)
    (hm : p m = false) (l : List Measurement) :
    (insertByTime m l).filter p = l.filter p := by
  induction l with
  | nil => simp [insertByTime, hm]
  | cons x xs ih =>
      by_cases h : m.measurement_time ≤ x.measurement_time
      · simp only [insertByTime, if_pos h]
        simp [List.filter_cons, hm]
      · simp only [insertByTime, if_neg h]
        simp only [List.filter_cons, ih]

theorem filter_insertByTime_pos (p : Measurement → Bool) (m : Measurement)
    (hm : p m = true) (l : List Measurement) (hl : List.Pairwise timeLE l) :
    (insertByTime m l).filter p = insertByTime m (l.filter p) := by
  induction l with
  | nil => simp [insertByTime, hm]
  | cons x xs ih =>
      rw [List.pairwise_cons] at hl
      by_cases h : m.measurement_time ≤ x.measurement_time
      · rw [insertByTime, if_pos h]
        cases hpx : p x with
        | true =>
            rw [List.filter_cons_of_pos hm, List.filter_cons_of_pos hpx]
            simp [insertByTime, h]
        | false =>
            rw [List.filter_cons_of_pos hm, List.filter_cons_of_neg (by simp [hpx])]
            rw [insertByTime_of_le]
            intro y hy
            exact Nat.le_trans h (hl.1 y (List.mem_filter.mp hy).1)
      · rw [insertByTime, if_neg h]
        cases hpx : p x with
        | true =>
            rw [List.filter_cons_of_pos hpx, List.filter_cons_of_pos hpx,
                ih hl.2, insertByTime, if_neg h]
        | false =>
            rw [List.filter_cons_of_neg (by simp [hpx]),
                List.filter_cons_of_neg (by simp [hpx]), ih hl.2]

theorem filter_sortByTime (p : Measurement → Bool) (l : List Measurement) :
    (sortByTime l).filter p = sortByTime (l.filter p) := by
  induction l with
  | nil => rfl
  | cons x xs ih =>
      cases hpx : p x with
      | true =>
          rw [sortByTime,
            filter_insertByTime_pos p x hpx (sortByTime xs) (sortByTime_pairwise xs),
            ih, List.filter_cons_of_pos hpx, sortByTime]
      | false =>
          rw [sortByTime, filter_insertByTime_neg p x hpx (sortByTime xs),
            ih, List.filter_cons_of_neg (by simp [hpx])]

/-- In a time-sorted non-empty list, every element is at or before the
last element. -/
theorem time_le_getLastD (m0 : Measurement) (rest : List Measurement)
    (h : List.Pairwise timeLE (m0 :: rest)) :
    ∀ m ∈ m0 :: rest, m.measurement_time ≤ (List.getLastD rest m0).measurement_time := by
  induction rest generalizing m0 with
  | nil =>
      intro m hm
      rcases List.mem_cons.mp hm with rfl | hm
      · exact Nat.le_refl _
      · cases hm
  | cons x rs ih =>
      intro m hm
      rw [List.pairwise_cons] at h
      rw [List.getLastD_cons]
      rcases List.mem_cons.mp hm with rfl | hm
      · exact Nat.le_trans (h.1 x (List.mem_cons_self x rs))
          (ih x h.2 x (List.mem_cons_self x rs))
      · exact ih x h.2 m hm

/-! ### Walk lemmas -/

/-- The walk reads the grid only through membership tests on the
timestamps of its own readings. -/
theorem sampleWalk_congr (i : Nat) (mt : MeasType) (I1 I2 : List Nat) :
    ∀ ms cie pending,
      (∀ m ∈ ms, (m.measurement_time ∈ I1 ↔ m.measurement_time ∈ I2)) →
      sampleWalk i mt I1 ms cie pending = sampleWalk i mt I2 ms cie pending := by
  intro ms
  induction ms with
  | nil => intro cie pending _; rfl
  | cons m rest ih =>
      intro cie pending h
      have hm := h m (List.mem_cons_self m rest)
      have hrest : ∀ m' ∈ rest, (m'.measurement_time ∈ I1 ↔ m'.measurement_time ∈ I2) :=
        fun m' hm' => h m' (List.mem_cons_of_mem m hm')
      by_cases hmem : m.measurement_time ∈ I1
      · have hmem2 : m.measurement_time ∈ I2 := hm.mp hmem
        simp only [sampleWalk, if_pos hmem, if_pos hmem2]
        rw [ih _ _ hrest]
      · have hmem2 : m.measurement_time ∉ I2 := fun hc => hmem (hm.mpr hc)
        simp only [sampleWalk, if_neg hmem, if_neg hmem2]
        rw [ih _ _ hrest]

theorem advanceLoopAux_types (i t : Nat) (mt : MeasType) :
    ∀ f cie pending m', m' ∈ (advanceLoopAux i t mt f cie pending).1 →
      m'.measurement_type = mt := by
  intro f
  induction f with
  | zero => intro cie pending m' hm'; simp [advanceLoopAux] at hm'
  | succ g ih =>
      intro cie pending m' hm'
      by_cases hcie : cie < t
      · cases pending with
        | none =>
            simp only [advanceLoopAux, if_pos hcie] at hm'
            exact ih _ none m' hm'
        | some lm =>
            simp only [advanceLoopAux, if_pos hcie] at hm'
            rcases List.mem_cons.mp hm' with rfl | hm'
            · rfl
            · exact ih _ none m' hm'
      · rw [advanceLoopAux_stop i t mt _ cie pending hcie] at hm'
        cases hm'

theorem advanceLoop_types (i t : Nat) (mt : MeasType) (cie : Nat)
    (pending : Option Measurement) (m' : Measurement)
    (hm' : m' ∈ (advanceLoop i t mt cie pending).1) : m'.measurement_type = mt := by
  by_cases hi : 0 < i
  · rw [advanceLoop, if_pos hi] at hm'
    exact advanceLoopAux_types i t mt _ cie pending m' hm'
  · rw [advanceLoop, if_neg hi] at hm'
    cases hm'

/-- Every point the walk emits is tagged with the channel being walked. -/
theorem sampleWalk_types (i : Nat) (mt : MeasType) (I : List Nat) :
    ∀ ms cie pending m', m' ∈ sampleWalk i mt I ms cie pending →
      m'.measurement_type = mt := by
  intro ms
  induction ms with
  | nil =>
      intro cie pending m' hm'
      cases pending with
      | none => simp [sampleWalk] at hm'
      | some lm =>
          simp only [sampleWalk, List.mem_singleton] at hm'
          subst hm'; rfl
  | cons m rest ih =>
      intro cie pending m' hm'
      by_cases hmem : m.measurement_time ∈ I
      · simp only [sampleWalk, if_pos hmem] at hm'
        rcases List.mem_cons.mp hm' with rfl | hm'
        · rfl
        · exact ih _ none m' hm'
      · simp only [sampleWalk, if_neg hmem] at hm'
        rcases List.mem_append.mp hm' with hl | hr
        · exact advanceLoop_types i m.measurement_time mt cie pending m' hl
        · exact ih _ (some m) m' hr

theorem sample_single_type_types (i : Nat) (mt : MeasType)
    (ms : List Measurement) (ivs : List Nat) (m' : Measurement)
    (hm' : m' ∈ sample_single_type i mt ms ivs) : m'.measurement_type = mt := by
  cases ms with
  | nil => cases hm'
  | cons m0 rest => exact sampleWalk_types i mt ivs _ _ none m' hm'

/-- A reading whose timestamp is a grid instant is emitted verbatim. -/
theorem sampleWalk_hit_mem (i : Nat) (mt : MeasType) (I : List Nat) :
    ∀ ms cie pending m, m ∈ ms → m.measurement_time ∈ I →
      Measurement.mk m.measurement_time mt m.value ∈ sampleWalk i mt I ms cie pending := by
  intro ms
  induction ms with
  | nil => intro _ _ m hm; cases hm
  | cons m0 rest ih =>
      intro cie pending m hm hI
      rcases List.mem_cons.mp hm with rfl | hm
      · simp only [sampleWalk, if_pos hI]
        exact List.mem_cons_self _ _
      · by_cases h0 : m0.measurement_time ∈ I
        · simp only [sampleWalk, if_pos h0]
          exact List.mem_cons_of_mem _ (ih _ none m hm hI)
        · simp only [sampleWalk, if_neg h0]
          exact List.mem_append_right _ (ih _ (some m0) m hm hI)

/-- When every reading is an exact grid hit of the right channel, the walk
reproduces its input unchanged. -/
theorem sampleWalk_allhit (i : Nat) (mt : MeasType) (I : List Nat) :
    ∀ ms cie, (∀ m ∈ ms, m.measurement_time ∈ I ∧ m.measurement_type = mt) →
      sampleWalk i mt I ms cie none = ms := by
  intro ms
  induction ms with
  | nil => intro _ _; rfl
  | cons m rest ih =>
      intro cie h
      have hm := h m (List.mem_cons_self m rest)
      simp only [sampleWalk, if_pos hm.1]
      rw [ih cie (fun m' hm' => h m' (List.mem_cons_of_mem m hm'))]
      have hmk : Measurement.mk m.measurement_time mt m.value = m := by
        obtain ⟨tt, ty, v⟩ := m
        simp_all
      rw [hmk]

theorem advanceLoopAux_anchor (i t : Nat) (mt : MeasType) (a : Nat) :
    ∀ f cie pending, (∃ k, cie = a + 60 * i * k) →
      (∀ m' ∈ (advanceLoopAux i t mt f cie pending).1,
          ∃ k, m'.measurement_time = a + 60 * i * k) ∧
        (∃ k, (advanceLoopAux i t mt f cie pending).2 = a + 60 * i * k) := by
  intro f
  induction f with
  | zero =>
      intro cie pending hc
      exact ⟨fun m' hm' => by simp [advanceLoopAux] at hm', hc⟩
  | succ g ih =>
      intro cie pending hc
      obtain ⟨k, hk⟩ := hc
      have hnext : ∃ k', cie + 60 * i = a + 60 * i * k' :=
        ⟨k + 1, by rw [hk]; ring⟩
      by_cases hcie : cie < t
      · cases pending with
        | none =>
            simp only [advanceLoopAux, if_pos hcie]
            exact ih _ none hnext
        | some lm =>
            simp only [advanceLoopAux, if_pos hcie]
            refine ⟨?_, (ih _ none hnext).2⟩
            intro m' hm'
            rcases List.mem_cons.mp hm' with rfl | hm'
            · exact ⟨k, hk⟩
            · exact (ih _ none hnext).1 m' hm'
      · rw [advanceLoopAux_stop i t mt _ cie pending hcie]
        refine ⟨?_, ⟨k, hk⟩⟩
        intro m' hm'
        simp at hm'

theorem advanceLoop_anchor (i t : Nat) (mt : MeasType) (a cie : Nat)
    (pending : Option Measurement) (hi : 0 < i)
    (hc : ∃ k, cie = a + 60 * i * k) :
    (∀ m' ∈ (advanceLoop i t mt cie pending).1,
        ∃ k, m'.measurement_time = a + 60 * i * k) ∧
      (∃ k, (advanceLoop i t mt cie pending).2 = a + 60 * i * k) := by
  rw [advanceLoop, if_pos hi]
  exact advanceLoopAux_anchor i t mt a _ cie pending hc

/-- Every emitted timestamp is either the timestamp of some processed
reading or reachable from the anchor by whole multiples of the interval. -/
theorem sampleWalk_anchor (i : Nat) (hi : 0 < i) (mt : MeasType)
    (I : List Nat) (a : Nat) :
    ∀ ms cie pending, (∃ k, cie = a + 60 * i * k) →
      ∀ m' ∈ sampleWalk i mt I ms cie pending,
        (∃ m0 ∈ ms, m'.measurement_time = m0.measurement_time) ∨
          (∃ k, m'.measurement_time = a + 60 * i * k) := by
  intro ms
  induction ms with
  | nil =>
      intro cie pending hc m' hm'
      cases pending with
      | none => simp [sampleWalk] at hm'
      | some lm =>
          simp only [sampleWalk, List.mem_singleton] at hm'
          subst hm'
          exact Or.inr hc
  | cons m rest ih =>
      intro cie pending hc m' hm'
      by_cases hmem : m.measurement_time ∈ I
      · simp only [sampleWalk, if_pos hmem] at hm'
        rcases List.mem_cons.mp hm' with rfl | hm'
        · exact Or.inl ⟨m, List.mem_cons_self m rest, rfl⟩
        · rcases ih cie none hc m' hm' with ⟨m0, hm0, ht⟩ | hr
          · exact Or.inl ⟨m0, List.mem_cons_of_mem m hm0, ht⟩
          · exact Or.inr hr
      · simp only [sampleWalk, if_neg hmem] at hm'
        have hadv := advanceLoop_anchor i m.measurement_time mt a cie pending hi hc
        rcases List.mem_append.mp hm' with hl | hr
        · exact Or.inr (hadv.1 m' hl)
        · rcases ih _ (some m) hadv.2 m' hr with ⟨m0, hm0, ht⟩ | hrr
          · exact Or.inl ⟨m0, List.mem_cons_of_mem m hm0, ht⟩
          · exact Or.inr hrr

/-! ### Grouping lemmas -/

theorem typesInOrder_nodup (l : List Measurement) : (typesInOrder l).Nodup := by
  induction l with
  | nil => exact List.nodup_nil
  | cons m rest ih =>
      rw [typesInOrder, List.nodup_cons]
      refine ⟨?_, List.Nodup.filter _ ih⟩
      intro hmem
      have := (List.mem_filter.mp hmem).2
      simp at this

theorem mem_typesInOrder {t : MeasType} :
    ∀ {l : List Measurement},
      t ∈ typesInOrder l ↔ ∃ m ∈ l, m.measurement_type = t := by
  intro l
  induction l with
  | nil => simp [typesInOrder]
  | cons m rest ih =>
      simp only [typesInOrder, List.mem_cons, List.mem_filter]
      constructor
      · rintro (rfl | ⟨hmem, _⟩)
        · exact ⟨m, Or.inl rfl, rfl⟩
        · obtain ⟨m', hm', ht⟩ := ih.mp hmem
          exact ⟨m', Or.inr hm', ht⟩
      · rintro ⟨m', hm', ht⟩
        rcases hm' with rfl | hm'
        · exact Or.inl ht.symm
        · by_cases he : t = m.measurement_type
          · exact Or.inl he
          · exact Or.inr ⟨ih.mpr ⟨m', hm', ht⟩, by simp [he]⟩

theorem mem_concatBlocks {x : Measurement} {g : MeasType → List Measurement} :
    ∀ {ts : List MeasType}, x ∈ concatBlocks ts g ↔ ∃ t ∈ ts, x ∈ g t := by
  intro ts
  induction ts with
  | nil => simp [concatBlocks]
  | cons t rest ih =>
      simp only [concatBlocks, List.mem_append, ih, List.mem_cons]
      constructor
      · rintro (h | ⟨u, hu, hx⟩)
        · exact ⟨t, Or.inl rfl, h⟩
        · exact ⟨u, Or.inr hu, hx⟩
      · rintro ⟨u, (rfl | hu), hx⟩
        · exact Or.inl hx
        · exact Or.inr ⟨u, hu, hx⟩

/-- Filtering the merged output down to one channel picks out exactly that
block of that channel, provided each block is tagged with its own channel. -/
theorem filter_concatBlocks (t : MeasType) (g : MeasType → List Measurement)
    (hg : ∀ t', ∀ m ∈ g t', m.measurement_type = t') :
    ∀ ts : List MeasType, ts.Nodup →
      (concatBlocks ts g).filter (fun m => decide (m.measurement_type = t)) =
        if t ∈ ts then g t else [] := by
  intro ts
  induction ts with
  | nil => simp [concatBlocks]
  | cons u rest ih =>
      intro hnd
      rw [List.nodup_cons] at hnd
      simp only [concatBlocks, List.filter_append, ih hnd.2]
      by_cases he : u = t
      · subst he
        have h1 : (g u).filter (fun m => decide (m.measurement_type = u)) = g u :=
          List.filter_eq_self.mpr (fun m hm => by simp [hg u m hm])
        rw [h1, if_neg hnd.1, if_pos (List.mem_cons_self u rest), List.append_nil]
      · have h1 : (g u).filter (fun m => decide (m.measurement_type = t)) = [] :=
          List.filter_eq_nil_iff.mpr (fun m hm => by simp [hg u m hm, he])
        rw [h1, List.nil_append]
        by_cases ht : t ∈ rest
        · rw [if_pos ht, if_pos (List.mem_cons_of_mem u ht)]
        · rw [if_neg ht, if_neg (fun hc => by
            rcases List.mem_cons.mp hc with rfl | hc
            · exact he rfl
            · exact ht hc)]

theorem count_groupOf (l : List Measurement) (t : MeasType) (x : Measurement) :
    (groupOf l t).count x = if x.measurement_type = t then l.count x else 0 := by
  induction l with
  | nil => simp [groupOf]
  | cons m rest ih =>
      by_cases hm : m.measurement_type = t
      · rw [groupOf, List.filter_cons_of_pos (by simp [hm])]
        by_cases hx : x.measurement_type = t
        · by_cases hxm : m = x
          · subst hxm
            simp only [List.count_cons_self]
            rw [if_pos hx] at ih ⊢
            rw [groupOf] at ih
            omega
          · rw [List.count_cons_of_ne (fun h => hxm h.symm),
                List.count_cons_of_ne (fun h => hxm h.symm)]
            rw [if_pos hx] at ih ⊢
            exact ih
        · have hxm : m ≠ x := fun h => hx (h ▸ hm)
          rw [List.count_cons_of_ne (fun h => hxm h.symm)]
          rw [if_neg hx] at ih ⊢
          exact ih
      · rw [groupOf, List.filter_cons_of_neg (by simp [hm])]
        by_cases hx : x.measurement_type = t
        · have hxm : m ≠ x := fun h => hm (h ▸ hx)
          rw [List.count_cons_of_ne (fun h => hxm h.symm)]
          rw [if_pos hx] at ih ⊢
          exact ih
        · rw [if_neg hx] at ih ⊢
          exact ih

theorem count_concatBlocks_groupOf (l : List Measurement) (x : Measurement) :
    ∀ ts : List MeasType, ts.Nodup →
      (concatBlocks ts (groupOf l)).count x =
        if x.measurement_type ∈ ts then l.count x else 0 := by
  intro ts
  induction ts with
  | nil => simp [concatBlocks]
  | cons u rest ih =>
      intro hnd
      rw [List.nodup_cons] at hnd
      simp only [concatBlocks, List.count_append, ih hnd.2, count_groupOf]
      by_cases hx : x.measurement_type = u
      · have hnr : x.measurement_type ∉ rest := hx ▸ hnd.1
        rw [if_pos hx, if_neg hnr, if_pos (by rw [hx]; exact List.mem_cons_self u rest)]
        omega
      · rw [if_neg hx]
        by_cases ht : x.measurement_type ∈ rest
        · rw [if_pos ht, if_pos (List.mem_cons_of_mem u ht), Nat.zero_add]
        · rw [if_neg ht, if_neg (fun hc => by
            rcases List.mem_cons.mp hc with h | h
            · exact hx h
            · exact ht h)]

/-- Splitting a list into its per-type groups, in first-appearance order,
is a permutation of the list. -/
theorem concatBlocks_groups_perm (l : List Measurement) :
    List.Perm (concatBlocks (typesInOrder l) (groupOf l)) l := by
  rw [List.perm_iff_count]
  intro x
  rw [count_concatBlocks_groupOf l x _ (typesInOrder_nodup l)]
  by_cases hx : x.measurement_type ∈ typesInOrder l
  · rw [if_pos hx]
  · rw [if_neg hx]
    have hnot : x ∉ l := fun hmem => hx (mem_typesInOrder.mpr ⟨x, hmem, rfl⟩)
    exact (List.count_eq_zero_of_not_mem hnot).symm

theorem lookupType_map (t : MeasType) (g : MeasType → List Measurement) :
    ∀ ts : List MeasType,
      lookupType t (ts.map (fun u => (u, g u))) =
        if t ∈ ts then some (g t) else none := by
  intro ts
  induction ts with
  | nil => simp [lookupType]
  | cons u rest ih =>
      simp only [List.map_cons, lookupType]
      by_cases he : u = t
      · subst he
        rw [if_pos rfl, if_pos (List.mem_cons_self u rest)]
      · rw [if_neg he, ih]
        by_cases ht : t ∈ rest
        · rw [if_pos ht, if_pos (List.mem_cons_of_mem u ht)]
        · rw [if_neg ht, if_neg (fun hc => by
            rcases List.mem_cons.mp hc with rfl | hc
            · exact he rfl
            · exact ht hc)]

theorem joinBlocks_map (g : MeasType → List Measurement) :
    ∀ ts : List MeasType,
      joinBlocks (ts.map (fun u => (u, g u))) = concatBlocks ts g := by
  intro ts
  induction ts with
  | nil => rfl
  | cons u rest ih => simp [joinBlocks, concatBlocks, ih]

/-! ### Pipeline lemmas -/

theorem sort_and_filter_pairwise (ms : List Measurement) (st : Option Nat) :
    List.Pairwise timeLE (sort_and_filter_measurements ms st) := by
  cases st with
  | none => exact sortByTime_pairwise ms
  | some s => exact (sortByTime_pairwise ms).filter _

theorem mem_sort_and_filter {m : Measurement} {ms : List Measurement}
    {st : Option Nat} (h : m ∈ sort_and_filter_measurements ms st) : m ∈ ms := by
  cases st with
  | none => exact mem_sortByTime.mp h
  | some s => exact mem_sortByTime.mp (List.mem_filter.mp h).1

theorem generate_intervals_some (i : Nat) (m0 : Measurement)
    (rest : List Measurement) (s : Nat)
    (h : List.Pairwise timeLE (m0 :: rest)) :
    generate_intervals i (m0 :: rest) (some s) =
      genIntervals i s (List.getLastD rest m0).measurement_time := by
  simp only [generate_intervals, sortByTime_of_pairwise _ h]

theorem generate_intervals_none (i : Nat) (m0 : Measurement)
    (rest : List Measurement) (h : List.Pairwise timeLE (m0 :: rest)) :
    generate_intervals i (m0 :: rest) none =
      genIntervals i (get_interval_start i m0.measurement_time)
        (List.getLastD rest m0).measurement_time := by
  simp only [generate_intervals, sortByTime_of_pairwise _ h]

/-- The per-channel output depends on the grid only through its end limit,
and only vacuously once every channel timestamp is below both limits. -/
theorem sample_single_congr_ends (i : Nat) (hi : 0 < i) (t : MeasType)
    (G : List Measurement) (s e1 e2 : Nat)
    (h1 : ∀ m ∈ G, m.measurement_time ≤ e1)
    (h2 : ∀ m ∈ G, m.measurement_time ≤ e2) :
    sample_single_type i t G (genIntervals i s e1) =
      sample_single_type i t G (genIntervals i s e2) := by
  cases G with
  | nil => rfl
  | cons g0 grest =>
      simp only [sample_single_type]
      apply sampleWalk_congr
      intro m hm
      rw [genIntervals_mem i s e1 _ hi, genIntervals_mem i s e2 _ hi]
      constructor
      · rintro ⟨k, hk, _⟩; exact ⟨k, hk, h2 m hm⟩
      · rintro ⟨k, hk, _⟩; exact ⟨k, hk, h1 m hm⟩

/-- Removing one channel from the input does not change the sorted,
filtered group of another channel. -/
theorem groupOf_sorted_remove (ms : List Measurement) (s : Nat) (u t : MeasType)
    (hne : t ≠ u) :
    groupOf (sort_and_filter_measurements
        (ms.filter (fun m => decide (¬ m.measurement_type = u))) (some s)) t =
      groupOf (sort_and_filter_measurements ms (some s)) t := by
  simp only [groupOf, sort_and_filter_measurements]
  rw [List.filter_filter, List.filter_filter, filter_sortByTime, filter_sortByTime,
    List.filter_filter]
  congr 1
  apply List.filter_congr
  intro m _
  by_cases hm : m.measurement_type = t
  · simp [hm, hne]
  · simp [hm]

theorem groupOf_ne_nil_iff (l : List Measurement) (t : MeasType) :
    groupOf l t ≠ [] ↔ ∃ m ∈ l, m.measurement_type = t := by
  rw [groupOf, Ne, List.filter_eq_nil_iff]
  constructor
  · intro h
    by_contra hne
    push_neg at hne
    exact h fun m hm => by simpa using hne m hm
  · rintro ⟨m, hm, ht⟩ hall
    have hc := hall m hm
    simp only [decide_eq_true_eq] at hc
    exact hc ht

/-- The flat output of sample_measurements, filtered down to one channel,
is exactly the block of that channel. -/
theorem filter_sample_measurements (cur : Nat) (ms : List Measurement)
    (ov : Option Int) (st : Option Nat) (b : Bool) (t : MeasType) :
    ((sample_measurements cur ms ov st b).1).filter
        (fun m => decide (m.measurement_type = t)) =
      sample_single_type (updInterval cur ov) t
        (groupOf (sort_and_filter_measurements ms st) t)
        (generate_intervals (updInterval cur ov)
          (sort_and_filter_measurements ms st) st) := by
  have hfst : (sample_measurements cur ms ov st b).1 =
      concatBlocks (typesInOrder (sort_and_filter_measurements ms st))
        (fun t' => sample_single_type (updInterval cur ov) t'
          (groupOf (sort_and_filter_measurements ms st) t')
          (generate_intervals (updInterval cur ov)
            (sort_and_filter_measurements ms st) st)) := by
    cases b <;> rfl
  rw [hfst, filter_concatBlocks t _
    (fun t' m hm => sample_single_type_types _ _ _ _ m hm) _
    (typesInOrder_nodup _)]
  by_cases ht : t ∈ typesInOrder (sort_and_filter_measurements ms st)
  · rw [if_pos ht]
  · rw [if_neg ht]
    have hnil : groupOf (sort_and_filter_measurements ms st) t = [] := by
      rw [groupOf, List.filter_eq_nil_iff]
      intro m hm
      simp only [decide_eq_true_eq]
      exact fun he => ht (mem_typesInOrder.mpr ⟨m, hm, he⟩)
    rw [hnil]
    rfl

/-- Looking one channel up in the grouped output yields the block of that
channel when the channel occurs, and nothing otherwise. -/
theorem lookup_sample_measurements_by_type (cur : Nat) (ms : List Measurement)
    (ov : Option Int) (st : Option Nat) (t : MeasType) :
    lookupType t (sample_measurements_by_type cur ms ov st).1 =
      if t ∈ typesInOrder (sort_and_filter_measurements ms st) then
        some (sample_single_type (updInterval cur ov) t
          (groupOf (sort_and_filter_measurements ms st) t)
          (generate_intervals (updInterval cur ov)
            (sort_and_filter_measurements ms st) st))
      else none :=
  lookupType_map t _ _

end DataSampler

namespace DataSampler

open MeasType

/-! ### Claim theorems -/

/-- Claim C10: the to_sort parameter has no observable effect: for every
starting interval, input list, interval override and start time,
sample_measurements called with to_sort true and with to_sort false
returns the identical result. -/
theorem C10_to_sort_no_effect (cur : Nat) (ms : List Measurement)
    (ov : Option Int) (st : Option Nat) :
    sample_measurements cur ms ov st true =
      sample_measurements cur ms ov st false := rfl

/-- Claim C9: for equal instance state and identical arguments, the flat
sequence returned by sample_measurements equals the concatenation of the
per-channel lists returned by sample_measurements_by_type, whose key order
is the order of first appearance of each channel in the time-sorted,
filtered input; the updated instance interval also agrees. -/
theorem C9_flat_eq_concat_by_type (cur : Nat) (ms : List Measurement)
    (ov : Option Int) (st : Option Nat) (b : Bool) :
    (sample_measurements cur ms ov st b).1 =
        joinBlocks (sample_measurements_by_type cur ms ov st).1 ∧
      (sample_measurements cur ms ov st b).2 =
        (sample_measurements_by_type cur ms ov st).2 ∧
      ((sample_measurements_by_type cur ms ov st).1).map Prod.fst =
        typesInOrder (sort_and_filter_measurements ms st) := by
  refine ⟨?_, ?_, ?_⟩
  · have h1 : (sample_measurements_by_type cur ms ov st).1 =
        (typesInOrder (sort_and_filter_measurements ms st)).map
          (fun t => (t, sample_single_type (updInterval cur ov) t
            (groupOf (sort_and_filter_measurements ms st) t)
            (generate_intervals (updInterval cur ov)
              (sort_and_filter_measurements ms st) st))) := rfl
    have h2 : (sample_measurements cur ms ov st b).1 =
        concatBlocks (typesInOrder (sort_and_filter_measurements ms st))
          (fun t => sample_single_type (updInterval cur ov) t
            (groupOf (sort_and_filter_measurements ms st) t)
            (generate_intervals (updInterval cur ov)
              (sort_and_filter_measurements ms st) st)) := by
      cases b <;> rfl
    rw [h1, h2, joinBlocks_map]
  · cases b <;> rfl
  · have h1 : (sample_measurements_by_type cur ms ov st).1 =
        (typesInOrder (sort_and_filter_measurements ms st)).map
          (fun t => (t, sample_single_type (updInterval cur ov) t
            (groupOf (sort_and_filter_measurements ms st) t)
            (generate_intervals (updInterval cur ov)
              (sort_and_filter_measurements ms st) st))) := rfl
    rw [h1]
    generalize typesInOrder (sort_and_filter_measurements ms st) = ts
    induction ts with
    | nil => rfl
    | cons a l ih =>
        simp only [List.map_cons]
        rw [ih]

/-- Claim C7: a positive per-call interval override persists as the new
default on the instance: the stored interval after a call equals the
override when one is given (and is unchanged otherwise), and a later call
with no override behaves exactly as a call on an instance constructed with
the overridden interval; in particular constructing with 5 and calling
once with 10 makes the next override-free call use 10. -/
theorem C7_override_persists :
    (∀ (cur : Nat) (ms : List Measurement) (st : Option Nat) (b : Bool) (v : Int),
        0 < v → (sample_measurements cur ms (some v) st b).2 = v.toNat) ∧
      (∀ (cur : Nat) (ms : List Measurement) (st : Option Nat) (b : Bool),
        (sample_measurements cur ms none st b).2 = cur) ∧
      (∀ (ms1 ms2 : List Measurement) (st1 st2 : Option Nat) (b1 b2 : Bool),
        sample_measurements (sample_measurements 5 ms1 (some 10) st1 b1).2
            ms2 none st2 b2 =
          sample_measurements 10 ms2 none st2 b2) := by
  refine ⟨?_, ?_, ?_⟩
  · intro cur ms st b v hv
    have h2 : (sample_measurements cur ms (some v) st b).2 =
        updInterval cur (some v) := by cases b <;> rfl
    rw [h2]
    simp only [updInterval, if_pos hv]
  · intro cur ms st b
    cases b <;> rfl
  · intro ms1 ms2 st1 st2 b1 b2
    have h2 : (sample_measurements 5 ms1 (some 10) st1 b1).2 = 10 := by
      cases b1 <;> rfl
    rw [h2]

/-- Witness for C7 at concrete inputs. -/
theorem C7_witness :
    (0 : Int) < 10 ∧
      (sample_measurements 5 [] (some 10) none true).2 = (10 : Int).toNat :=
  ⟨by decide, C7_override_persists.1 5 [] none true 10 (by decide)⟩

/-- Claim C3 (amended): a missing, zero or negative interval at
construction raises the ValueError immediately, and a positive one is
stored; but a zero or negative per-call override does not raise: both
sample_measurements and sample_measurements_by_type silently ignore it and
run with the previously configured interval. -/
theorem C3_validation :
    initSampler none = Except.error "Interval must be a positive integer" ∧
      (∀ v : Int, v ≤ 0 →
        initSampler (some v) =
          Except.error "Interval must be a positive integer") ∧
      (∀ v : Int, 0 < v → initSampler (some v) = Except.ok v.toNat) ∧
      (∀ (cur : Nat) (ms : List Measurement) (st : Option Nat) (b : Bool)
          (v : Int), v ≤ 0 →
        sample_measurements cur ms (some v) st b =
          sample_measurements cur ms none st b) ∧
      (∀ (cur : Nat) (ms : List Measurement) (st : Option Nat) (v : Int),
        v ≤ 0 →
        sample_measurements_by_type cur ms (some v) st =
          sample_measurements_by_type cur ms none st) := by
  refine ⟨rfl, ?_, ?_, ?_, ?_⟩
  · intro v hv
    simp only [initSampler, if_pos hv]
  · intro v hv
    simp only [initSampler, if_neg (by omega : ¬ v ≤ 0)]
  · intro cur ms st b v hv
    have hupd : updInterval cur (some v) = updInterval cur none := by
      simp only [updInterval, if_neg (by omega : ¬ (0:Int) < v)]
    simp only [sample_measurements, hupd]
  · intro cur ms st v hv
    have hupd : updInterval cur (some v) = updInterval cur none := by
      simp only [updInterval, if_neg (by omega : ¬ (0:Int) < v)]
    simp only [sample_measurements_by_type, hupd]

/-- Counterexample to claim C3 as stated: a zero interval override does
not fail; the call succeeds, returns the same output as with no override,
and leaves the stored interval at its previous value 5. -/
theorem C3_counterexample :
    sample_measurements 5 [⟨36060, TEMP, 36⟩] (some 0) none true =
        sample_measurements 5 [⟨36060, TEMP, 36⟩] none none true ∧
      (sample_measurements 5 [⟨36060, TEMP, 36⟩] (some 0) none true).2 = 5 :=
  ⟨rfl, rfl⟩

/-- Witness for C3 at concrete inputs. -/
theorem C3_witness :
    initSampler (some 0) =
        Except.error "Interval must be a positive integer" ∧
      sample_measurements 7 [] (some (-3)) none true =
        sample_measurements 7 [] none none true :=
  ⟨C3_validation.2.1 0 (by decide),
    C3_validation.2.2.2.1 7 [] none true (-3) (by decide)⟩

/-- Claim C2, evaluated on the code: with to_sort left at its default, the
returned flat list is the plain concatenation of the per-channel blocks
and is NOT globally sorted by timestamp.  Readings TEMP at 10:01 and
10:06 and SPO2 at 10:02 (seconds 36060, 36360, 36120) with interval 5
yield the TEMP points (10:05, 10:10) followed by the SPO2 point (10:05),
so a later timestamp precedes an earlier one. -/
theorem C2_unsorted_output_eval :
    (sample_measurements 5
        [⟨36060, TEMP, 36⟩, ⟨36120, SPO2, 98⟩, ⟨36360, TEMP, 37⟩]
        none none true).1 =
      [⟨36300, TEMP, 36⟩, ⟨36600, TEMP, 37⟩, ⟨36300, SPO2, 98⟩] ∧
      isTimeSorted (sample_measurements 5
        [⟨36060, TEMP, 36⟩, ⟨36120, SPO2, 98⟩, ⟨36360, TEMP, 37⟩]
        none none true).1 = false :=
  ⟨by decide, by decide⟩

/-- Claim C4: during a gap-advance at most one carry-forward point is
emitted: with a pending value the loop emits exactly one point, at the
first boundary reached, and with no pending value it emits nothing; and
the concrete gap scenario (TEMP at 10:00 and 11:00, interval 5, seconds
36000 and 39600) yields exactly the two original points. -/
theorem C4_single_carry_forward :
    (∀ (i t cie : Nat) (mt : MeasType) (lm : Measurement), 0 < i → cie < t →
        (advanceLoop i t mt cie (some lm)).1 =
          [Measurement.mk cie mt lm.value]) ∧
      (∀ (i t cie : Nat) (mt : MeasType),
        (advanceLoop i t mt cie none).1 = []) ∧
      (sample_measurements 5 [⟨36000, TEMP, 36⟩, ⟨39600, TEMP, mkRat 73 2⟩]
          none none true).1 =
        [⟨36000, TEMP, 36⟩, ⟨39600, TEMP, mkRat 73 2⟩] :=
  ⟨fun i t cie mt lm hi h => advanceLoop_some_fst i t mt cie lm hi h,
    fun i t cie mt => advanceLoop_none_fst i t mt cie,
    by decide⟩

/-- Witness for C4 at concrete inputs. -/
theorem C4_witness :
    0 < 5 ∧ 36300 < 36600 ∧
      (advanceLoop 5 36600 MeasType.TEMP 36300
          (some ⟨36000, MeasType.TEMP, 36⟩)).1 =
        [Measurement.mk 36300 MeasType.TEMP (36 : ℚ)] :=
  ⟨by decide, by decide,
    C4_single_carry_forward.1 5 36600 36300 MeasType.TEMP
      ⟨36000, MeasType.TEMP, 36⟩ (by decide) (by decide)⟩

/-- Claim C5: every reading whose timestamp is a member of the grid is
emitted verbatim, at exactly that timestamp, carrying its own value and
channel; concretely, TEMP and SPO2 readings sharing the exact boundary
10:10 (second 36600) with interval 5 each produce an output point at
10:10 preserving their own value. -/
theorem C5_exact_hit :
    (∀ (cur : Nat) (ms : List Measurement) (st : Option Nat) (b : Bool)
        (m : Measurement),
        m ∈ sort_and_filter_measurements ms st →
        m.measurement_time ∈
          generate_intervals cur (sort_and_filter_measurements ms st) st →
        Measurement.mk m.measurement_time m.measurement_type m.value ∈
          (sample_measurements cur ms none st b).1) ∧
      (sample_measurements 5 [⟨36600, TEMP, 36⟩, ⟨36600, SPO2, mkRat 73 2⟩]
          none none true).1 =
        [⟨36600, TEMP, 36⟩, ⟨36600, SPO2, mkRat 73 2⟩] := by
  constructor
  · intro cur ms st b m hm hgrid
    have hfst : (sample_measurements cur ms none st b).1 =
        concatBlocks (typesInOrder (sort_and_filter_measurements ms st))
          (fun t => sample_single_type cur t
            (groupOf (sort_and_filter_measurements ms st) t)
            (generate_intervals cur (sort_and_filter_measurements ms st) st)) := by
      cases b <;> rfl
    rw [hfst]
    apply mem_concatBlocks.mpr
    refine ⟨m.measurement_type, mem_typesInOrder.mpr ⟨m, hm, rfl⟩, ?_⟩
    have hmG : m ∈ groupOf (sort_and_filter_measurements ms st)
        m.measurement_type := List.mem_filter.mpr ⟨hm, by simp⟩
    have hGne : groupOf (sort_and_filter_measurements ms st)
        m.measurement_type ≠ [] := by
      intro h0
      rw [h0] at hmG
      cases hmG
    obtain ⟨g0, grest, hG⟩ := List.exists_cons_of_ne_nil hGne
    rw [hG]
    simp only [sample_single_type]
    exact sampleWalk_hit_mem _ _ _ _ _ none m (hG ▸ hmG) hgrid
  · decide

/-- Witness for C5 at concrete inputs. -/
theorem C5_witness :
    (⟨36600, TEMP, 36⟩ : Measurement) ∈
        sort_and_filter_measurements
          [⟨36600, TEMP, 36⟩, ⟨36600, SPO2, mkRat 73 2⟩] none ∧
      (36600 : Nat) ∈ generate_intervals 5
        (sort_and_filter_measurements
          [⟨36600, TEMP, 36⟩, ⟨36600, SPO2, mkRat 73 2⟩] none) none ∧
      Measurement.mk 36600 TEMP 36 ∈
        (sample_measurements 5 [⟨36600, TEMP, 36⟩, ⟨36600, SPO2, mkRat 73 2⟩]
          none none true).1 :=
  ⟨by decide, by decide,
    C5_exact_hit.1 5 [⟨36600, TEMP, 36⟩, ⟨36600, SPO2, mkRat 73 2⟩] none true
      ⟨36600, TEMP, 36⟩ (by decide) (by decide)⟩


theorem concatBlocks_congr {g1 g2 : MeasType → List Measurement} :
    ∀ ts : List MeasType, (∀ t ∈ ts, g1 t = g2 t) →
      concatBlocks ts g1 = concatBlocks ts g2 := by
  intro ts
  induction ts with
  | nil => intro _; rfl
  | cons u rest ih =>
      intro h
      simp only [concatBlocks]
      rw [h u (List.mem_cons_self u rest),
        ih (fun t ht => h t (List.mem_cons_of_mem u ht))]

/-- Claim C6: for every positive interval, every emitted timestamp is
either reachable from the interval-aligned floor of the timestamp of the
first reading of some channel by adding whole multiples of the interval,
or exactly equal to the timestamp of some input reading. -/
theorem C6_grid_times (i : Nat) (hi : 0 < i) (ms : List Measurement)
    (st : Option Nat) (b : Bool) (m' : Measurement)
    (hm' : m' ∈ (sample_measurements i ms none st b).1) :
    (∃ t m0, (groupOf (sort_and_filter_measurements ms st) t).head? = some m0 ∧
        ∃ k, m'.measurement_time =
          get_interval_start i m0.measurement_time + 60 * i * k) ∨
      (∃ m0 ∈ ms, m'.measurement_time = m0.measurement_time) := by
  have hfst : (sample_measurements i ms none st b).1 =
      concatBlocks (typesInOrder (sort_and_filter_measurements ms st))
        (fun t => sample_single_type i t
          (groupOf (sort_and_filter_measurements ms st) t)
          (generate_intervals i (sort_and_filter_measurements ms st) st)) := by
    cases b <;> rfl
  rw [hfst] at hm'
  obtain ⟨t, _, hblock⟩ := mem_concatBlocks.mp hm'
  cases hG : groupOf (sort_and_filter_measurements ms st) t with
  | nil => rw [hG] at hblock; cases hblock
  | cons g0 grest =>
      rw [hG] at hblock
      simp only [sample_single_type] at hblock
      have hanchor := sampleWalk_anchor i hi t
        (generate_intervals i (sort_and_filter_measurements ms st) st)
        (get_interval_start i g0.measurement_time) (g0 :: grest)
        (get_interval_start i g0.measurement_time + 60 * i) none
        ⟨1, by ring⟩ m' hblock
      rcases hanchor with ⟨m0, hm0, heq⟩ | ⟨k, hk⟩
      · refine Or.inr ⟨m0, ?_, heq⟩
        have hmem : m0 ∈ groupOf (sort_and_filter_measurements ms st) t := by
          rw [hG]; exact hm0
        exact mem_sort_and_filter (List.mem_filter.mp hmem).1
      · refine Or.inl ⟨t, g0, ?_, ⟨k, hk⟩⟩
        rw [hG]
        rfl

/-- Witness for C6 at concrete inputs. -/
theorem C6_witness :
    0 < 5 ∧
      (⟨36300, TEMP, 36⟩ : Measurement) ∈
        (sample_measurements 5 [⟨36060, TEMP, 36⟩] none none true).1 ∧
      ((∃ t m0, (groupOf (sort_and_filter_measurements
            [(⟨36060, TEMP, 36⟩ : Measurement)] none) t).head? = some m0 ∧
          ∃ k, (⟨36300, TEMP, 36⟩ : Measurement).measurement_time =
            get_interval_start 5 m0.measurement_time + 60 * 5 * k) ∨
        (∃ m0 ∈ [(⟨36060, TEMP, 36⟩ : Measurement)],
          (⟨36300, TEMP, 36⟩ : Measurement).measurement_time =
            m0.measurement_time)) :=
  ⟨by decide, by decide,
    C6_grid_times 5 (by decide) [⟨36060, TEMP, 36⟩] none true
      ⟨36300, TEMP, 36⟩ (by decide)⟩

/-- Claim C8: when every input timestamp lies on the grid walked by the
current interval from the interval floor of the earliest reading, the
resampler emits exactly the same collection of points (every reading is
an exact grid hit, so the output is the input regrouped by channel: a
permutation of the input). -/
theorem C8_idempotent_on_grid (i : Nat) (hi : 0 < i) (ms : List Measurement)
    (b : Bool) (m0 : Measurement) (h0 : (sortByTime ms).head? = some m0)
    (hal : ∀ m ∈ ms, ∃ k, m.measurement_time =
      get_interval_start i m0.measurement_time + 60 * i * k) :
    List.Perm (sample_measurements i ms none none b).1 ms := by
  obtain ⟨rest, hsort⟩ : ∃ rest, sortByTime ms = m0 :: rest := by
    cases hs : sortByTime ms with
    | nil => rw [hs] at h0; cases h0
    | cons x rest =>
        rw [hs] at h0
        injection h0 with h0
        exact ⟨rest, by rw [h0]⟩
  have hpair : List.Pairwise timeLE (m0 :: rest) := hsort ▸ sortByTime_pairwise ms
  have hivs : generate_intervals i (sortByTime ms) none =
      genIntervals i (get_interval_start i m0.measurement_time)
        (List.getLastD rest m0).measurement_time := by
    rw [hsort]
    exact generate_intervals_none i m0 rest hpair
  have hle : ∀ m ∈ sortByTime ms,
      m.measurement_time ≤ (List.getLastD rest m0).measurement_time := by
    intro m hm
    rw [hsort] at hm
    exact time_le_getLastD m0 rest hpair m hm
  have hfst : (sample_measurements i ms none none b).1 =
      concatBlocks (typesInOrder (sortByTime ms))
        (fun t => sample_single_type i t (groupOf (sortByTime ms) t)
          (generate_intervals i (sortByTime ms) none)) := by
    cases b <;> rfl
  rw [hfst]
  have hblocks : ∀ t, sample_single_type i t (groupOf (sortByTime ms) t)
      (generate_intervals i (sortByTime ms) none) = groupOf (sortByTime ms) t := by
    intro t
    cases hG : groupOf (sortByTime ms) t with
    | nil => rfl
    | cons g0 grest =>
        simp only [sample_single_type]
        apply sampleWalk_allhit
        intro m hm
        have hmem : m ∈ groupOf (sortByTime ms) t := by rw [hG]; exact hm
        have hmsort : m ∈ sortByTime ms := (List.mem_filter.mp hmem).1
        constructor
        · rw [hivs, genIntervals_mem _ _ _ _ hi]
          obtain ⟨k, hk⟩ := hal m (mem_sortByTime.mp hmsort)
          exact ⟨k, hk, hle m hmsort⟩
        · have := (List.mem_filter.mp hmem).2
          simpa using this
  rw [concatBlocks_congr _ (fun t _ => hblocks t)]
  exact (concatBlocks_groups_perm (sortByTime ms)).trans (sortByTime_perm ms)

/-- Witness for C8 at concrete inputs. -/
theorem C8_witness :
    (sortByTime [⟨36000, TEMP, 1⟩, ⟨36300, SPO2, 2⟩]).head? =
        some (⟨36000, TEMP, 1⟩ : Measurement) ∧
      List.Perm (sample_measurements 5 [⟨36000, TEMP, 1⟩, ⟨36300, SPO2, 2⟩]
        none none true).1 [⟨36000, TEMP, 1⟩, ⟨36300, SPO2, 2⟩] := by
  refine ⟨by decide, C8_idempotent_on_grid 5 (by decide) _ true
    ⟨36000, TEMP, 1⟩ (by decide) ?_⟩
  intro m hm
  rcases List.mem_cons.mp hm with rfl | hm
  · exact ⟨0, by decide⟩
  · rcases List.mem_cons.mp hm with rfl | hm
    · exact ⟨1, by decide⟩
    · cases hm

/-- Counterexample to claim C1 as stated: with interval 7 and no explicit
start, removing the SPO2 channel changes the TEMP output.  The grid is
anchored at the interval floor of the globally earliest reading: with
SPO2 at 10:00 (second 36000) the grid contains 11:03 (39780), so the TEMP
reading there is an exact hit; without SPO2 the grid is anchored at 11:00
and the TEMP point moves to 11:07 (40020). -/
theorem C1_counterexample :
    ¬ ((sample_measurements 7
          (([⟨36000, SPO2, 1⟩, ⟨39780, TEMP, 2⟩] : List Measurement).filter
            (fun m => decide (¬ m.measurement_type = SPO2)))
          none none true).1.filter (fun m => decide (m.measurement_type = TEMP)) =
        (sample_measurements 7 [⟨36000, SPO2, 1⟩, ⟨39780, TEMP, 2⟩]
          none none true).1.filter
            (fun m => decide (m.measurement_type = TEMP))) := by
  decide

/-- Claim C1 (amended): channels are resampled independently whenever an
explicit start time is supplied: removing every Measurement of one type u
leaves the points emitted for any other type t unchanged, both in the
flat output of sample_measurements (restricted to t) and in the entry for
t of sample_measurements_by_type.  Without an explicit start the grid is
anchored at the interval floor of the globally earliest reading across
all channels, so removing the anchoring channel can change the exact-hit
set of another channel when the interval does not divide 60 (see the
counterexample at interval 7). -/
theorem C1_independence_with_start (i : Nat) (hi : 0 < i)
    (ms : List Measurement) (s : Nat) (u t : MeasType) (hne : t ≠ u) (b : Bool) :
    (sample_measurements i
          (ms.filter (fun m => decide (¬ m.measurement_type = u)))
          none (some s) b).1.filter (fun m => decide (m.measurement_type = t)) =
        (sample_measurements i ms none (some s) b).1.filter
          (fun m => decide (m.measurement_type = t)) ∧
      lookupType t (sample_measurements_by_type i
          (ms.filter (fun m => decide (¬ m.measurement_type = u)))
          none (some s)).1 =
        lookupType t (sample_measurements_by_type i ms none (some s)).1 := by
  have hGr : groupOf (sort_and_filter_measurements
      (ms.filter (fun m => decide (¬ m.measurement_type = u))) (some s)) t =
      groupOf (sort_and_filter_measurements ms (some s)) t :=
    groupOf_sorted_remove ms s u t hne
  have hblock :
      sample_single_type i t
        (groupOf (sort_and_filter_measurements
          (ms.filter (fun m => decide (¬ m.measurement_type = u))) (some s)) t)
        (generate_intervals i (sort_and_filter_measurements
          (ms.filter (fun m => decide (¬ m.measurement_type = u))) (some s))
          (some s)) =
      sample_single_type i t
        (groupOf (sort_and_filter_measurements ms (some s)) t)
        (generate_intervals i (sort_and_filter_measurements ms (some s))
          (some s)) := by
    rw [hGr]
    cases hGe : groupOf (sort_and_filter_measurements ms (some s)) t with
    | nil => rfl
    | cons g0 grest =>
        have hmemF : g0 ∈ sort_and_filter_measurements ms (some s) := by
          have hg : g0 ∈ groupOf (sort_and_filter_measurements ms (some s)) t := by
            rw [hGe]; exact List.mem_cons_self _ _
          exact (List.mem_filter.mp hg).1
        have hmemR : g0 ∈ sort_and_filter_measurements
            (ms.filter (fun m => decide (¬ m.measurement_type = u))) (some s) := by
          have hg : g0 ∈ groupOf (sort_and_filter_measurements
              (ms.filter (fun m => decide (¬ m.measurement_type = u)))
              (some s)) t := by
            rw [hGr, hGe]; exact List.mem_cons_self _ _
          exact (List.mem_filter.mp hg).1
        obtain ⟨f0, frest, hF⟩ := List.exists_cons_of_ne_nil
          (show sort_and_filter_measurements ms (some s) ≠ [] by
            intro h0; rw [h0] at hmemF; cases hmemF)
        obtain ⟨r0, rrest, hR⟩ := List.exists_cons_of_ne_nil
          (show sort_and_filter_measurements
              (ms.filter (fun m => decide (¬ m.measurement_type = u)))
              (some s) ≠ [] by
            intro h0; rw [h0] at hmemR; cases hmemR)
        have hpF : List.Pairwise timeLE (f0 :: frest) :=
          hF ▸ sort_and_filter_pairwise ms (some s)
        have hpR : List.Pairwise timeLE (r0 :: rrest) :=
          hR ▸ sort_and_filter_pairwise
            (ms.filter (fun m => decide (¬ m.measurement_type = u))) (some s)
        rw [hR, generate_intervals_some i r0 rrest s hpR,
          hF, generate_intervals_some i f0 frest s hpF]
        apply sample_single_congr_ends i hi t _ s _ _
        · intro m hm
          have hmR : m ∈ sort_and_filter_measurements
              (ms.filter (fun m => decide (¬ m.measurement_type = u)))
              (some s) := by
            have hg : m ∈ groupOf (sort_and_filter_measurements
                (ms.filter (fun m => decide (¬ m.measurement_type = u)))
                (some s)) t := by
              rw [hGr, hGe]; exact hm
            exact (List.mem_filter.mp hg).1
          rw [hR] at hmR
          exact time_le_getLastD r0 rrest hpR m hmR
        · intro m hm
          have hmF : m ∈ sort_and_filter_measurements ms (some s) := by
            have hg : m ∈ groupOf
                (sort_and_filter_measurements ms (some s)) t := by
              rw [hGe]; exact hm
            exact (List.mem_filter.mp hg).1
          rw [hF] at hmF
          exact time_le_getLastD f0 frest hpF m hmF
  constructor
  · rw [filter_sample_measurements, filter_sample_measurements]
    simp only [updInterval]
    exact hblock
  · rw [lookup_sample_measurements_by_type, lookup_sample_measurements_by_type]
    have hiff : (t ∈ typesInOrder (sort_and_filter_measurements
        (ms.filter (fun m => decide (¬ m.measurement_type = u))) (some s))) ↔
        (t ∈ typesInOrder (sort_and_filter_measurements ms (some s))) := by
      rw [mem_typesInOrder, mem_typesInOrder, ← groupOf_ne_nil_iff,
        ← groupOf_ne_nil_iff, hGr]
    by_cases ht : t ∈ typesInOrder (sort_and_filter_measurements ms (some s))
    · rw [if_pos ht, if_pos (hiff.mpr ht)]
      simp only [updInterval]
      exact congrArg some hblock
    · rw [if_neg ht, if_neg (fun hc => ht (hiff.mp hc))]

/-- Witness for the amended C1 at concrete inputs: same data as the
counterexample, but with the explicit start 10:00 supplied; the TEMP
outputs now agree. -/
theorem C1_witness :
    0 < 7 ∧ MeasType.TEMP ≠ MeasType.SPO2 ∧
      (sample_measurements 7
          (([⟨36000, SPO2, 1⟩, ⟨39780, TEMP, 2⟩] : List Measurement).filter
            (fun m => decide (¬ m.measurement_type = SPO2)))
          none (some 36000) true).1.filter
            (fun m => decide (m.measurement_type = TEMP)) =
        (sample_measurements 7 [⟨36000, SPO2, 1⟩, ⟨39780, TEMP, 2⟩]
          none (some 36000) true).1.filter
            (fun m => decide (m.measurement_type = TEMP)) :=
  ⟨by decide, by decide,
    (C1_independence_with_start 7 (by decide)
      [⟨36000, SPO2, 1⟩, ⟨39780, TEMP, 2⟩] 36000 SPO2 TEMP (by decide) true).1⟩

end DataSampler
